import Mathlib

/-!
# Verification of the blackmarlin chess engine core

Shallow embedding of the parts of the engine relevant to the checked
claims: the transposition table (`src/bm/bm_util/t_table.rs`), the history
tables (`src/bm/bm_util/h_table.rs`), the position / NNUE accumulator
stack (`src/bm/bm_util/position.rs`, `src/bm/nnue.rs`), fragments of the
alpha-beta and quiescence search (`src/bm/bm_search/search.rs`), the
ordered move generator (`src/bm/bm_search/move_gen.rs`) and the pruning
lookup tables (`src/bm/bm_util/lookup.rs`).

Machine integers are modelled as `Nat` / `Int` with explicit reduction
modulo `2^w` wherever Rust release-mode wrapping is observable.  Rust `/`
on signed integers truncates towards zero and is therefore modelled by
`Int.tdiv`.  Fallible operations (`unwrap`, slice indexing) are modelled
with `Option`.
-/

namespace BM

/-! ## Transposition table (`t_table.rs`) -/

/-- `t_table.rs` `EntryType`. -/
inductive EntryType
  | lowerBound
  | exact
  | upperBound
deriving DecidableEq, Repr

/-- Piece kinds of the chess library (`cozy_chess::Piece`), in declaration
order `Pawn, Knight, Bishop, Rook, Queen, King`. -/
inductive Piece
  | pawn
  | knight
  | bishop
  | rook
  | queen
  | king
deriving DecidableEq, Repr

/-- `cozy_chess::Move`: source square, destination square, optional
promotion piece.  Squares are indices `0..63` (`a1 = 0`). -/
structure CMove where
  src : Fin 64
  dst : Fin 64
  promotion : Option Piece
deriving DecidableEq, Repr

/-- `t_table.rs` `Analysis`: the payload packed into one 64-bit atomic.
`depth` is a `u8`, `score` is modelled by its 16-bit pattern. -/
structure Analysis where
  exists_ : Bool
  depth : Fin 256
  entryType : EntryType
  score : Fin 65536
  tableMove : CMove
deriving DecidableEq, Repr

/-- `Analysis::zero()`: `exists = false`, depth 0, `LowerBound`, score 0,
move a1-a1. -/
def Analysis.zero : Analysis :=
  { exists_ := false
    depth := 0
    entryType := .lowerBound
    score := 0
    tableMove := { src := 0, dst := 0, promotion := none } }

def EntryType.code : EntryType → Nat
  | .lowerBound => 0
  | .exact => 1
  | .upperBound => 2

def Piece.idx : Piece → Nat
  | .pawn => 0
  | .knight => 1
  | .bishop => 2
  | .rook => 3
  | .queen => 4
  | .king => 5

def promoCode : Option Piece → Nat
  | none => 6
  | some p => p.idx

def promoDecode : Nat → Option Piece
  | 0 => some .pawn
  | 1 => some .knight
  | 2 => some .bishop
  | 3 => some .rook
  | 4 => some .queen
  | 5 => some .king
  | _ => none

/-- Numeric packing of a `CMove` (14 bits). -/
def CMove.encode (m : CMove) : Nat :=
  m.src.val + 64 * m.dst.val + 4096 * promoCode m.promotion

def CMove.decode (n : Nat) : CMove :=
  { src := ⟨n % 64, Nat.mod_lt _ (by norm_num)⟩
    dst := ⟨n / 64 % 64, Nat.mod_lt _ (by norm_num)⟩
    promotion := promoDecode (n / 4096) }

/-- The `std::mem::transmute::<Analysis, u64>` of `t_table.rs`, modelled
as an explicit injective packing of the fields into a natural number
below `2^64` (the compiler-chosen layout is irrelevant: only injectivity
and invertibility are used by the table). -/
def Analysis.encode (a : Analysis) : Nat :=
  a.exists_.toNat +
    2 * (a.entryType.code +
      3 * (a.depth.val +
        256 * (a.score.val + 65536 * a.tableMove.encode)))

def entryTypeDecode : Nat → EntryType
  | 0 => .lowerBound
  | 1 => .exact
  | _ => .upperBound

/-- Inverse transmute: recover an `Analysis` from its 64-bit pattern. -/
def Analysis.decode (n : Nat) : Analysis :=
  { exists_ := n % 2 = 1
    depth := ⟨n / 6 % 256, Nat.mod_lt _ (by norm_num)⟩
    entryType := entryTypeDecode (n / 2 % 3)
    score := ⟨n / 1536 % 65536, Nat.mod_lt _ (by norm_num)⟩
    tableMove := CMove.decode (n / 100663296) }

theorem promoDecode_promoCode (p : Option Piece) :
    promoDecode (promoCode p) = p := by
  cases p with
  | none => rfl
  | some q => cases q <;> rfl

theorem CMove.decode_encode_cm (m : CMove) : CMove.decode m.encode = m := by
  obtain ⟨s, d, p⟩ := m
  have hs := s.isLt
  have hd := d.isLt
  have hp : promoCode p < 7 := by
    cases p with
    | none => simp [promoCode]
    | some q => cases q <;> simp [promoCode, Piece.idx]
  simp only [CMove.decode, CMove.encode, CMove.mk.injEq]
  refine ⟨Fin.ext ?_, Fin.ext ?_, ?_⟩
  · show (s.val + 64 * d.val + 4096 * promoCode p) % 64 = s.val
    omega
  · show (s.val + 64 * d.val + 4096 * promoCode p) / 64 % 64 = d.val
    omega
  · rw [show (s.val + 64 * d.val + 4096 * promoCode p) / 4096 = promoCode p by omega]
    exact promoDecode_promoCode p

theorem Analysis.decode_encode (a : Analysis) : Analysis.decode a.encode = a := by
  obtain ⟨ex, de, et, sc, mv⟩ := a
  have hd := de.isLt
  have hs := sc.isLt
  have hm : mv.encode < 28672 := by
    have := mv.src.isLt
    have := mv.dst.isLt
    have : promoCode mv.promotion < 7 := by
      cases mv.promotion with
      | none => simp [promoCode]
      | some q => cases q <;> simp [promoCode, Piece.idx]
    unfold CMove.encode
    omega
  have he : ex.toNat < 2 := by cases ex <;> simp
  have ht : et.code < 3 := by cases et <;> simp [EntryType.code]
  simp only [Analysis.decode, Analysis.encode, Analysis.mk.injEq]
  refine ⟨?_, Fin.ext ?_, ?_, Fin.ext ?_, ?_⟩
  · cases ex <;> simp
  · show (ex.toNat + 2 * (et.code + 3 * (de.val +
        256 * (sc.val + 65536 * mv.encode)))) / 6 % 256 = de.val
    omega
  · rw [show (ex.toNat + 2 * (et.code + 3 * (de.val +
        256 * (sc.val + 65536 * mv.encode)))) / 2 % 3 = et.code by omega]
    cases et <;> rfl
  · show (ex.toNat + 2 * (et.code + 3 * (de.val +
        256 * (sc.val + 65536 * mv.encode)))) / 1536 % 65536 = sc.val
    omega
  · rw [show (ex.toNat + 2 * (et.code + 3 * (de.val +
        256 * (sc.val + 65536 * mv.encode)))) / 100663296 = mv.encode by omega]
    exact CMove.decode_encode_cm mv

/-- A table slot: the two 64-bit atomics of `t_table.rs` `Entry`
(`hash` and `analysis`), as bit patterns. -/
structure Slot where
  hashW : Nat
  analysisW : Nat
deriving DecidableEq, Repr

/-- `Entry::zeroed()`: both atomics hold `transmute(Analysis::zero())`. -/
def Slot.zeroed : Slot :=
  { hashW := Analysis.zero.encode, analysisW := Analysis.zero.encode }

/-- `t_table.rs` `TranspositionTable`: `size`-element array of slots,
`mask = size - 1`.  The array is modelled as a total function on indices
(entries at indices `≥ size` are never touched). -/
structure TranspositionTable where
  size : Nat
  table : Nat → Slot

/-- `TranspositionTable::new(size)` (the `next_power_of_two` adjustment is
kept abstract by taking the final size): every slot zeroed. -/
def TranspositionTable.new (size : Nat) : TranspositionTable :=
  { size := size, table := fun _ => Slot.zeroed }

/-- `TranspositionTable::index`: `(hash as usize) & self.mask`. -/
def TranspositionTable.index (tt : TranspositionTable) (hash : Nat) : Nat :=
  hash &&& (tt.size - 1)

/-- `TranspositionTable::do_replace(a, b)`: compare
`a.depth + a_extra_depth` with `(b.depth + b_extra_depth) / 2` where the
extra depth is 2 for `Exact | LowerBound` entries and 0 otherwise.  All
arithmetic is on `u8` in release mode, hence the reduction mod 256. -/
def doReplace (a b : Analysis) : Bool :=
  let aExtra : Nat :=
    (if a.entryType = .exact ∨ a.entryType = .lowerBound then 1 else 0) * 2
  let bExtra : Nat :=
    (if b.entryType = .exact ∨ b.entryType = .lowerBound then 1 else 0) * 2
  (a.depth.val + aExtra) % 256 ≥ ((b.depth.val + bExtra) % 256) / 2

/-- `TranspositionTable::get(board)`: load both words, check the XOR
checksum, transmute back and check the validity flag. -/
def TranspositionTable.get (tt : TranspositionTable) (hash : Nat) :
    Option Analysis :=
  let entry := tt.table (tt.index hash)
  if entry.analysisW ^^^ hash = entry.hashW then
    let analysis := Analysis.decode entry.analysisW
    if analysis.exists_ then some analysis else none
  else none

/-- `TranspositionTable::set(board, entry)`: decode the incumbent payload;
overwrite the slot with `(hash ^ payload, payload)` when the incumbent
does not exist or the replacement predicate admits the new entry. -/
def TranspositionTable.set (tt : TranspositionTable) (hash : Nat)
    (entry : Analysis) : TranspositionTable :=
  let idx := tt.index hash
  let analysis := Analysis.decode (tt.table idx).analysisW
  if ¬analysis.exists_ ∨ doReplace entry analysis then
    { tt with
      table := Function.update tt.table idx
        { hashW := hash ^^^ entry.encode, analysisW := entry.encode } }
  else tt

/-- The replacement inequality exactly as claim C1 words it:
`new.depth + bonus(new.kind) ≥ inc.depth/2 + bonus(inc.kind)/2` with
`bonus(Exact|LowerBound) = 2`, `bonus(UpperBound) = 0`, over unbounded
integer arithmetic. -/
def claimBonus : EntryType → Nat
  | .exact => 2
  | .lowerBound => 2
  | .upperBound => 0

def claimReplacePred (new inc : Analysis) : Prop :=
  new.depth.val + claimBonus new.entryType ≥
    inc.depth.val / 2 + claimBonus inc.entryType / 2

instance (new inc : Analysis) : Decidable (claimReplacePred new inc) := by
  unfold claimReplacePred; infer_instance

/-- The extra-depth bonus computed by `do_replace` agrees with the
claim's `bonus` function. -/
theorem extraDepth_eq_claimBonus (et : EntryType) :
    (if et = EntryType.exact ∨ et = EntryType.lowerBound then 1 else 0) * 2
      = claimBonus et := by
  cases et <;> simp [claimBonus]

def c1New : Analysis :=
  { exists_ := true, depth := 254, entryType := .exact, score := 0
    tableMove := { src := 0, dst := 0, promotion := none } }

def c1Inc : Analysis :=
  { exists_ := true, depth := 2, entryType := .upperBound, score := 0
    tableMove := { src := 0, dst := 0, promotion := none } }

/-- A transposition table whose slot 0 holds `c1Inc`. -/
def c1TT : TranspositionTable := (TranspositionTable.new 16).set 0 c1Inc

/-- Claim C1 is false as stated: storing an entry of depth 254 and kind
`Exact` over an incumbent of depth 2 and kind `UpperBound` satisfies the
claimed inequality `254 + 2 ≥ 2/2 + 0/2`, yet the slot is NOT
overwritten — the `u8` sum `a.depth + a_extra_depth` wraps to 0, which is
below `(2 + 0) / 2 = 1`.  The slot provably holds the incumbent and the
store leaves the table unchanged. -/
theorem c1_replace_policy_cex :
    claimReplacePred c1New c1Inc
      ∧ Analysis.decode (c1TT.table (c1TT.index 0)).analysisW = c1Inc
      ∧ c1Inc.exists_ = true
      ∧ c1TT.set 0 c1New = c1TT
      ∧ (c1TT.table (c1TT.index 0)).analysisW ≠ Analysis.encode c1New := by
  refine ⟨by decide, by decide, rfl, rfl, by decide⟩

/-- Claim C1, amended: for depths at most 253 (no `u8` overflow in
`depth + extra_depth`), a store over an existing incumbent overwrites the
slot if and only if `new.depth + bonus(new.kind) ≥ inc.depth/2 +
bonus(inc.kind)/2`; when the predicate fails the table is unchanged. -/
theorem c1_replace_policy (tt : TranspositionTable) (hash : Nat)
    (new inc : Analysis)
    (hinc : Analysis.decode (tt.table (tt.index hash)).analysisW = inc)
    (hex : inc.exists_ = true)
    (hnd : new.depth.val ≤ 253) (hid : inc.depth.val ≤ 253) :
    (claimReplacePred new inc →
        tt.set hash new =
          { tt with
            table := Function.update tt.table (tt.index hash)
              { hashW := hash ^^^ new.encode, analysisW := new.encode } })
      ∧ (¬claimReplacePred new inc → tt.set hash new = tt) := by
  have hdo : doReplace new inc = true ↔ claimReplacePred new inc := by
    unfold doReplace claimReplacePred
    rw [extraDepth_eq_claimBonus, extraDepth_eq_claimBonus]
    have hb1 : claimBonus new.entryType = 2 ∨ claimBonus new.entryType = 0 := by
      cases new.entryType <;> simp [claimBonus]
    have hb2 : claimBonus inc.entryType = 2 ∨ claimBonus inc.entryType = 0 := by
      cases inc.entryType <;> simp [claimBonus]
    simp only [ge_iff_le, decide_eq_true_eq]
    omega
  constructor
  · intro hpred
    simp only [TranspositionTable.set, hinc, hex]
    simp [hdo.mpr hpred]
  · intro hpred
    have hfalse : doReplace new inc = false := by
      rcases Bool.eq_false_or_eq_true (doReplace new inc) with h | h
      · exact absurd (hdo.mp h) hpred
      · exact h
    simp only [TranspositionTable.set, hinc, hex, hfalse]
    simp

def c1WNew : Analysis :=
  { exists_ := true, depth := 5, entryType := .upperBound, score := 0
    tableMove := { src := 0, dst := 0, promotion := none } }

def c1WInc : Analysis :=
  { exists_ := true, depth := 4, entryType := .exact, score := 0
    tableMove := { src := 0, dst := 0, promotion := none } }

def c1WTT : TranspositionTable := (TranspositionTable.new 16).set 0 c1WInc

/-- Concrete instantiation of `c1_replace_policy`: a depth-5 upper-bound
entry replaces a depth-4 exact incumbent (`5 + 0 ≥ 4/2 + 2/2`). -/
theorem c1_replace_policy_witness :
    c1WTT.set 0 c1WNew =
      { c1WTT with
        table := Function.update c1WTT.table (c1WTT.index 0)
          { hashW := 0 ^^^ c1WNew.encode, analysisW := c1WNew.encode } } :=
  (c1_replace_policy c1WTT 0 c1WNew c1WInc (by decide) rfl (by decide)
    (by decide)).1 (by decide)

/-- A probe of `hash` against a slot holding the checksummed pair written
for a valid entry `e` returns `some e`. -/
theorem get_of_slot (tt : TranspositionTable) (hash : Nat) (e : Analysis)
    (h : tt.table (tt.index hash)
      = { hashW := hash ^^^ e.encode, analysisW := e.encode })
    (hex : e.exists_ = true) : tt.get hash = some e := by
  unfold TranspositionTable.get
  rw [h]
  simp only
  rw [Nat.xor_comm e.encode hash]
  rw [if_pos rfl, Analysis.decode_encode, hex]
  simp

/-- Claim C2, amended: if the probed slot's incumbent is absent or the
replacement predicate admits the entry, then `set` followed by `get` on
the same hash returns exactly the stored entry. -/
theorem c2_tt_roundtrip (tt : TranspositionTable) (hash : Nat) (e : Analysis)
    (hex : e.exists_ = true)
    (hrep : ¬(Analysis.decode (tt.table (tt.index hash)).analysisW).exists_
      ∨ doReplace e (Analysis.decode (tt.table (tt.index hash)).analysisW)) :
    (tt.set hash e).get hash = some e := by
  have hset : tt.set hash e =
      { tt with
        table := Function.update tt.table (tt.index hash)
          { hashW := hash ^^^ e.encode, analysisW := e.encode } } := by
    simp only [TranspositionTable.set]
    exact if_pos hrep
  rw [hset]
  refine get_of_slot _ hash e ?_ hex
  show Function.update tt.table (tt.index hash) _ (tt.index hash) = _
  rw [Function.update_same]

def c2Inc : Analysis :=
  { exists_ := true, depth := 10, entryType := .exact, score := 0
    tableMove := { src := 0, dst := 0, promotion := none } }

def c2E : Analysis :=
  { exists_ := true, depth := 0, entryType := .upperBound, score := 7
    tableMove := { src := 1, dst := 2, promotion := none } }

def c2TT : TranspositionTable := (TranspositionTable.new 16).set 5 c2Inc

/-- Claim C2 is false as stated: with a depth-10 `Exact` incumbent in the
slot, storing a valid depth-0 `UpperBound` entry for the same hash is
refused by the replacement policy (`0 + 0 < (10 + 2)/2`), and the
subsequent probe returns the incumbent, not the stored entry. -/
theorem c2_tt_roundtrip_cex :
    ((c2TT.set 5 c2E).get 5) = some c2Inc ∧ some c2Inc ≠ some c2E := by
  exact ⟨rfl, by decide⟩

/-- Concrete instantiation of `c2_tt_roundtrip`: storing into an empty
slot and probing returns the entry. -/
theorem c2_tt_roundtrip_witness :
    (((TranspositionTable.new 8).set 3 c2E).get 3) = some c2E :=
  c2_tt_roundtrip (TranspositionTable.new 8) 3 c2E rfl (Or.inl (by decide))

/-! ## History tables (`h_table.rs`) -/

/-- Side to move: `White = 0`, `Black = 1` in both chess libraries. -/
inductive Color
  | white
  | black
deriving DecidableEq, Repr

def Color.idx : Color → Nat
  | .white => 0
  | .black => 1

/-- `!color`. -/
def Color.other : Color → Color
  | .white => .black
  | .black => .white

/-- `h_table.rs` `MAX_VALUE`. -/
def MAX_VALUE : Int := 512

/-- `h_table.rs` `piece_index`:
`color.to_index() * PIECE_COUNT / 2 + piece.to_index()` (`PIECE_COUNT = 12`). -/
def pieceIndex (c : Color) (p : Piece) : Nat := c.idx * 12 / 2 + p.idx

theorem pieceIndex_lt (c : Color) (p : Piece) : pieceIndex c p < 12 := by
  cases c <;> cases p <;> decide

def pieceIndexFin (c : Color) (p : Piece) : Fin 12 :=
  ⟨pieceIndex c p, pieceIndex_lt c p⟩

/-- The board interface used by `HistoryTable::cutoff`: side to move and
piece placement (the chess library supplying them is out of scope). -/
structure HBoard where
  sideToMove : Color
  pieceOn : Fin 64 → Option Piece

/-- `h_table.rs` `HistoryTable`: a `[[i16; 64]; 12]` array, modelled as a
total function into `Int`; genuine states have 16-bit entries. -/
structure HistoryTable where
  table : Fin 12 → Fin 64 → Int

def HistoryTable.new : HistoryTable := ⟨fun _ _ => 0⟩

/-- `HistoryTable::get(color, piece, to)`. -/
def HistoryTable.get (t : HistoryTable) (color : Color) (piece : Piece)
    (toSq : Fin 64) : Int :=
  t.table (pieceIndexFin color piece) toSq

def HistoryTable.setSlot (t : HistoryTable) (i : Fin 12) (j : Fin 64)
    (v : Int) : HistoryTable :=
  ⟨fun i' j' => if i' = i ∧ j' = j then v else t.table i' j'⟩

/-- Reinterpret an integer as a signed 16-bit value: Rust release-mode
`as i16` casts and wrapping `i16` arithmetic. -/
def wrap16 (x : Int) : Int := (x + 32768) % 65536 - 32768

/-- Reinterpret an integer as a signed 32-bit value (the `i32`
intermediate in the decay computation). -/
def wrap32 (x : Int) : Int := (x + 2147483648) % 4294967296 - 2147483648

/-- The loop body of `HistoryTable::cutoff` over `fails`: each failed
quiet's slot loses `change + change·value/MAX_VALUE`.  `piece_on(...)
.unwrap()` is modelled by `Option`. -/
def HistoryTable.cutoffFails (board : HBoard) (change : Int) :
    List CMove → HistoryTable → Option HistoryTable
  | [], t => some t
  | quiet :: rest, t =>
    match board.pieceOn quiet.src with
    | none => none
    | some piece =>
      let index := pieceIndexFin board.sideToMove piece
      let toIndex := quiet.dst
      let value := t.table index toIndex
      let decay := wrap16 (Int.tdiv (wrap32 (change * value)) MAX_VALUE)
      let decrement := wrap16 (change + decay)
      HistoryTable.cutoffFails board change rest
        (t.setSlot index toIndex (wrap16 (value - decrement)))

/-- `HistoryTable::cutoff(board, make_move, fails, amt)`. -/
def HistoryTable.cutoff (t : HistoryTable) (board : HBoard)
    (makeMove : CMove) (fails : List CMove) (amt : Nat) :
    Option HistoryTable :=
  if amt > 20 then some t
  else
    match board.pieceOn makeMove.src with
    | none => none
    | some piece =>
      let index := pieceIndexFin board.sideToMove piece
      let toIndex := makeMove.dst
      let value := t.table index toIndex
      let change : Int := wrap16 ((amt * amt : Nat) : Int)
      let decay := wrap16 (Int.tdiv (wrap32 (change * value)) MAX_VALUE)
      let increment := wrap16 (change - decay)
      HistoryTable.cutoffFails board change fails
        (t.setSlot index toIndex (wrap16 (value + increment)))

/-- The update law exactly as the spec (§3.4) and claim C6 word it, in
unbounded integer arithmetic with truncating division:
`table[cutoff_move] += b - b·value/MAX` and, for each failed quiet,
`table[move] -= b + b·value/MAX`, with `b = depth²`, applied in program
order; a no-op for depth > 20. -/
def HistoryTable.specCutoffFails (board : HBoard) (b : Int) :
    List CMove → HistoryTable → Option HistoryTable
  | [], t => some t
  | quiet :: rest, t =>
    match board.pieceOn quiet.src with
    | none => none
    | some piece =>
      let index := pieceIndexFin board.sideToMove piece
      let toIndex := quiet.dst
      let value := t.table index toIndex
      HistoryTable.specCutoffFails board b rest
        (t.setSlot index toIndex (value - (b + Int.tdiv (b * value) MAX_VALUE)))

def HistoryTable.specCutoff (t : HistoryTable) (board : HBoard)
    (makeMove : CMove) (fails : List CMove) (amt : Nat) :
    Option HistoryTable :=
  if amt > 20 then some t
  else
    match board.pieceOn makeMove.src with
    | none => none
    | some piece =>
      let index := pieceIndexFin board.sideToMove piece
      let toIndex := makeMove.dst
      let value := t.table index toIndex
      let b : Int := (amt * amt : Nat)
      HistoryTable.specCutoffFails board b fails
        (t.setSlot index toIndex (value + (b - Int.tdiv (b * value) MAX_VALUE)))

theorem wrap16_eq_self (x : Int) (h1 : -32768 ≤ x) (h2 : x ≤ 32767) :
    wrap16 x = x := by
  unfold wrap16; omega

theorem wrap32_eq_self (x : Int) (h1 : -2147483648 ≤ x)
    (h2 : x ≤ 2147483647) : wrap32 x = x := by
  unfold wrap32; omega

/-- Truncating division by 512 on a nonnegative dividend is floor
division. -/
theorem tdiv512_floor (a : Int) (h : 0 ≤ a) :
    512 * Int.tdiv a 512 ≤ a ∧ a < 512 * Int.tdiv a 512 + 512 := by
  rw [Int.tdiv_eq_ediv h (by norm_num)]
  have h1 := Int.ediv_add_emod a 512
  have h2 := Int.emod_nonneg a (by norm_num : (512 : Int) ≠ 0)
  have h3 := Int.emod_lt_of_pos a (by norm_num : (0 : Int) < 512)
  omega

/-- Truncating division by 512 on a nonpositive dividend is ceiling
division. -/
theorem tdiv512_ceil (a : Int) (h : a ≤ 0) :
    (a ≤ 512 * Int.tdiv a 512 ∧ 512 * Int.tdiv a 512 < a + 512)
      ∧ Int.tdiv a 512 ≤ 0 := by
  have ha : a = -(-a) := by ring
  rw [ha, Int.neg_tdiv]
  have h0 : (0 : Int) ≤ -a := by omega
  have hnn : 0 ≤ Int.tdiv (-a) 512 := Int.tdiv_nonneg h0 (by norm_num)
  have := tdiv512_floor (-a) h0
  constructor
  · omega
  · omega

/-- One increment step of the history update keeps a value inside
`[lo, hi]` whenever `lo ≤ 0`, `512 ≤ hi`, the value is in `[lo, hi]` and
the bonus is in `[0, 400]`. -/
theorem incStep_bounds (c v lo hi : Int) (hc0 : 0 ≤ c) (hc : c ≤ 400)
    (hlo : lo ≤ 0) (hhi : 512 ≤ hi) (hvl : lo ≤ v) (hvh : v ≤ hi) :
    lo ≤ v + (c - Int.tdiv (c * v) 512)
      ∧ v + (c - Int.tdiv (c * v) 512) ≤ hi := by
  rcases le_or_lt 0 v with hv | hv
  · have hcv : 0 ≤ c * v := mul_nonneg hc0 hv
    obtain ⟨hf1, hf2⟩ := tdiv512_floor (c * v) hcv
    constructor
    · have hle : c * v ≤ 512 * v := by nlinarith
      have : Int.tdiv (c * v) 512 ≤ v := by omega
      omega
    · have hprod : 512 * (v + c - hi) ≤ c * v := by nlinarith
      omega
  · have hcv : c * v ≤ 0 := mul_nonpos_of_nonneg_of_nonpos hc0 (le_of_lt hv)
    obtain ⟨⟨hf1, hf2⟩, hq⟩ := tdiv512_ceil (c * v) hcv
    constructor
    · omega
    · have hvc : v * (512 - c) ≤ 0 :=
        mul_nonpos_of_nonpos_of_nonneg (le_of_lt hv) (by omega)
      nlinarith

/-- One decrement step of the history update keeps a value inside
`[lo, hi]` whenever `lo ≤ -512`, `0 ≤ hi`, the value is in `[lo, hi]` and
the bonus is in `[0, 400]`. -/
theorem decStep_bounds (c v lo hi : Int) (hc0 : 0 ≤ c) (hc : c ≤ 400)
    (hlo : lo ≤ -512) (hhi : 0 ≤ hi) (hvl : lo ≤ v) (hvh : v ≤ hi) :
    lo ≤ v - (c + Int.tdiv (c * v) 512)
      ∧ v - (c + Int.tdiv (c * v) 512) ≤ hi := by
  have h := incStep_bounds c (-v) (-hi) (-lo) hc0 hc (by omega) (by omega)
    (by omega) (by omega)
  rw [mul_neg, Int.neg_tdiv] at h
  omega

/-- Truncating division by 512 is within 511 of the exact quotient times
512 on both sides. -/
theorem tdiv512_sandwich (a : Int) :
    a - 511 ≤ 512 * Int.tdiv a 512 ∧ 512 * Int.tdiv a 512 ≤ a + 511 := by
  rcases le_or_lt 0 a with h | h
  · have := tdiv512_floor a h
    omega
  · have := tdiv512_ceil a (le_of_lt h)
    omega

/-- The product `change * value` of the decay computation stays well
inside `i32` for 16-bit values and bonuses up to 400. -/
theorem cv_abs_le (c v : Int) (hc0 : 0 ≤ c) (hc : c ≤ 400)
    (hv : -32768 ≤ v) (hv' : v ≤ 32767) :
    -13107200 ≤ c * v ∧ c * v ≤ 13107200 := by
  constructor
  · nlinarith
  · nlinarith

/-- The increment branch of the `cutoff` body: all `i16`/`i32` casts and
wrapping additions are identities on genuine 16-bit table values, so the
source expression equals the spec's pure-integer update law. -/
theorem cutoffStep_inc_eq (c v : Int) (hc0 : 0 ≤ c) (hc : c ≤ 400)
    (hv : -32768 ≤ v) (hv' : v ≤ 32767) :
    wrap16 (v + wrap16 (c - wrap16 (Int.tdiv (wrap32 (c * v)) MAX_VALUE)))
      = v + (c - Int.tdiv (c * v) MAX_VALUE) := by
  have hcv := cv_abs_le c v hc0 hc hv hv'
  have hw32 : wrap32 (c * v) = c * v := wrap32_eq_self _ (by omega) (by omega)
  simp only [MAX_VALUE, hw32]
  have hsq := tdiv512_sandwich (c * v)
  have hq : -25600 ≤ Int.tdiv (c * v) 512 ∧ Int.tdiv (c * v) 512 ≤ 25600 := by
    omega
  rw [wrap16_eq_self (Int.tdiv (c * v) 512) (by omega) (by omega)]
  rw [wrap16_eq_self (c - Int.tdiv (c * v) 512) (by omega) (by omega)]
  have hb := incStep_bounds c v (-32768) 32767 hc0 hc (by norm_num)
    (by norm_num) hv hv'
  exact wrap16_eq_self _ (by omega) (by omega)

/-- The decrement branch of the `cutoff` body equals the spec's
pure-integer update law on genuine 16-bit table values. -/
theorem cutoffStep_dec_eq (c v : Int) (hc0 : 0 ≤ c) (hc : c ≤ 400)
    (hv : -32768 ≤ v) (hv' : v ≤ 32767) :
    wrap16 (v - wrap16 (c + wrap16 (Int.tdiv (wrap32 (c * v)) MAX_VALUE)))
      = v - (c + Int.tdiv (c * v) MAX_VALUE) := by
  have hcv := cv_abs_le c v hc0 hc hv hv'
  have hw32 : wrap32 (c * v) = c * v := wrap32_eq_self _ (by omega) (by omega)
  simp only [MAX_VALUE, hw32]
  have hsq := tdiv512_sandwich (c * v)
  have hq : -25600 ≤ Int.tdiv (c * v) 512 ∧ Int.tdiv (c * v) 512 ≤ 25600 := by
    omega
  rw [wrap16_eq_self (Int.tdiv (c * v) 512) (by omega) (by omega)]
  rw [wrap16_eq_self (c + Int.tdiv (c * v) 512) (by omega) (by omega)]
  have hb := decStep_bounds c v (-32768) 32767 hc0 hc (by norm_num)
    (by norm_num) hv hv'
  exact wrap16_eq_self _ (by omega) (by omega)

/-- Every entry of the table lies in `[lo, hi]`. -/
def entriesIn (t : HistoryTable) (lo hi : Int) : Prop :=
  ∀ i j, lo ≤ t.table i j ∧ t.table i j ≤ hi

theorem entriesIn_setSlot {t : HistoryTable} {lo hi v : Int} (i : Fin 12)
    (j : Fin 64) (ht : entriesIn t lo hi) (h1 : lo ≤ v) (h2 : v ≤ hi) :
    entriesIn (t.setSlot i j v) lo hi := by
  intro i' j'
  unfold HistoryTable.setSlot
  dsimp only
  split
  · exact ⟨h1, h2⟩
  · exact ht i' j'

theorem setSlot_table_eq (t : HistoryTable) (i : Fin 12) (j : Fin 64)
    (v : Int) : (t.setSlot i j v).table i j = v := by
  unfold HistoryTable.setSlot
  simp

/-- The `fails` loop of the code equals the `fails` loop of the spec
formula on 16-bit tables. -/
theorem cutoffFails_eq_spec (board : HBoard) (c : Int) (hc0 : 0 ≤ c)
    (hc : c ≤ 400) :
    ∀ (fails : List CMove) (t : HistoryTable), entriesIn t (-32768) 32767 →
      HistoryTable.cutoffFails board c fails t
        = HistoryTable.specCutoffFails board c fails t := by
  intro fails
  induction fails with
  | nil => intro t _; rfl
  | cons quiet rest ih =>
    intro t ht
    simp only [HistoryTable.cutoffFails, HistoryTable.specCutoffFails]
    cases hbp : board.pieceOn quiet.src with
    | none => rfl
    | some piece =>
      simp only
      obtain ⟨hv1, hv2⟩ := ht (pieceIndexFin board.sideToMove piece) quiet.dst
      rw [cutoffStep_dec_eq c _ hc0 hc hv1 hv2]
      refine ih _ (entriesIn_setSlot _ _ ht ?_ ?_)
      · exact (decStep_bounds c _ (-32768) 32767 hc0 hc (by norm_num)
          (by norm_num) hv1 hv2).1
      · exact (decStep_bounds c _ (-32768) 32767 hc0 hc (by norm_num)
          (by norm_num) hv1 hv2).2

/-- The `fails` loop keeps every entry within `[-512, 512]`. -/
theorem cutoffFails_entriesIn (board : HBoard) (c : Int) (hc0 : 0 ≤ c)
    (hc : c ≤ 400) :
    ∀ (fails : List CMove) (t t' : HistoryTable),
      entriesIn t (-512) 512 →
      HistoryTable.cutoffFails board c fails t = some t' →
      entriesIn t' (-512) 512 := by
  intro fails
  induction fails with
  | nil =>
    intro t t' ht hres
    cases hres
    exact ht
  | cons quiet rest ih =>
    intro t t' ht hres
    simp only [HistoryTable.cutoffFails] at hres
    cases hbp : board.pieceOn quiet.src with
    | none => rw [hbp] at hres; cases hres
    | some piece =>
      rw [hbp] at hres
      simp only at hres
      obtain ⟨hv1, hv2⟩ := ht (pieceIndexFin board.sideToMove piece) quiet.dst
      rw [cutoffStep_dec_eq c _ hc0 hc (by omega) (by omega)] at hres
      refine ih _ t' (entriesIn_setSlot _ _ ht ?_ ?_) hres
      · exact (decStep_bounds c _ (-512) 512 hc0 hc (by norm_num)
          (by norm_num) hv1 hv2).1
      · exact (decStep_bounds c _ (-512) 512 hc0 hc (by norm_num)
          (by norm_num) hv1 hv2).2

/-- Claim C6: on every genuine history-table state (16-bit entries),
`HistoryTable::cutoff` is a no-op for `depth > 20`, and otherwise
performs exactly the spec's update law `table[cutoff_move] +=
b - b·value/MAX`, `table[fail] -= b + b·value/MAX` with `b = depth²`,
`MAX = 512`, in truncating integer arithmetic. -/
theorem c6_history_cutoff (t : HistoryTable) (board : HBoard) (mv : CMove)
    (fails : List CMove) (amt : Nat) (ht : entriesIn t (-32768) 32767) :
    (20 < amt → t.cutoff board mv fails amt = some t)
      ∧ t.cutoff board mv fails amt = t.specCutoff board mv fails amt := by
  constructor
  · intro h
    unfold HistoryTable.cutoff
    rw [if_pos h]
  · unfold HistoryTable.cutoff HistoryTable.specCutoff
    by_cases h : amt > 20
    · rw [if_pos h, if_pos h]
    · rw [if_neg h, if_neg h]
      cases hbp : board.pieceOn mv.src with
      | none => rfl
      | some piece =>
        simp only
        have hle : amt ≤ 20 := by omega
        have hc0 : (0 : Int) ≤ ((amt * amt : Nat) : Int) := Int.natCast_nonneg _
        have hc400 : ((amt * amt : Nat) : Int) ≤ 400 := by
          have : amt * amt ≤ 400 := Nat.mul_le_mul hle hle
          exact_mod_cast this
        rw [wrap16_eq_self ((amt * amt : Nat) : Int) (by omega) (by omega)]
        obtain ⟨hv1, hv2⟩ := ht (pieceIndexFin board.sideToMove piece) mv.dst
        rw [cutoffStep_inc_eq _ _ hc0 hc400 hv1 hv2]
        refine cutoffFails_eq_spec board _ hc0 hc400 fails _
          (entriesIn_setSlot _ _ ht ?_ ?_)
        · exact (incStep_bounds _ _ (-32768) 32767 hc0 hc400 (by norm_num)
            (by norm_num) hv1 hv2).1
        · exact (incStep_bounds _ _ (-32768) 32767 hc0 hc400 (by norm_num)
            (by norm_num) hv1 hv2).2

/-- Claim C7: starting from a table with entries in `[-512, 512]`, a
cutoff with depth in `[0, 20]` leaves every entry in `[-512, 512]`. -/
theorem c7_history_bounds (t : HistoryTable) (board : HBoard) (mv : CMove)
    (fails : List CMove) (amt : Nat) (t' : HistoryTable)
    (ht : entriesIn t (-512) 512) (hamt : amt ≤ 20)
    (hres : t.cutoff board mv fails amt = some t') :
    entriesIn t' (-512) 512 := by
  unfold HistoryTable.cutoff at hres
  rw [if_neg (by omega)] at hres
  cases hbp : board.pieceOn mv.src with
  | none => rw [hbp] at hres; cases hres
  | some piece =>
    rw [hbp] at hres
    simp only at hres
    have hc0 : (0 : Int) ≤ ((amt * amt : Nat) : Int) := Int.natCast_nonneg _
    have hc400 : ((amt * amt : Nat) : Int) ≤ 400 := by
      have : amt * amt ≤ 400 := Nat.mul_le_mul hamt hamt
      exact_mod_cast this
    rw [wrap16_eq_self ((amt * amt : Nat) : Int) (by omega) (by omega)] at hres
    obtain ⟨hv1, hv2⟩ := ht (pieceIndexFin board.sideToMove piece) mv.dst
    rw [cutoffStep_inc_eq _ _ hc0 hc400 (by omega) (by omega)] at hres
    refine cutoffFails_entriesIn board _ hc0 hc400 fails _ t'
      (entriesIn_setSlot _ _ ht ?_ ?_) hres
    · exact (incStep_bounds _ _ (-512) 512 hc0 hc400 (by norm_num)
        (by norm_num) hv1 hv2).1
    · exact (incStep_bounds _ _ (-512) 512 hc0 hc400 (by norm_num)
        (by norm_num) hv1 hv2).2

/-- A concrete board for the history-table witnesses: white to move,
pawns everywhere. -/
def histBoardW : HBoard := { sideToMove := .white, pieceOn := fun _ => some .pawn }

def histMvW : CMove := { src := 0, dst := 1, promotion := none }

def histFailsW : List CMove := [{ src := 2, dst := 3, promotion := none }]

/-- Concrete instantiation of `c6_history_cutoff` on the zero table at
depth 3. -/
theorem c6_history_cutoff_witness :
    HistoryTable.new.cutoff histBoardW histMvW histFailsW 3
      = HistoryTable.new.specCutoff histBoardW histMvW histFailsW 3 :=
  (c6_history_cutoff HistoryTable.new histBoardW histMvW histFailsW 3
    (by intro i j; constructor <;> norm_num [HistoryTable.new])).2

/-- The table produced by the `c7_history_bounds` witness run. -/
def c7Res : HistoryTable :=
  (HistoryTable.new.cutoff histBoardW histMvW histFailsW 4).getD
    HistoryTable.new

/-- Concrete instantiation of `c7_history_bounds`: a depth-4 cutoff from
the zero table yields a table with entries in `[-512, 512]`. -/
theorem c7_history_bounds_witness : entriesIn c7Res (-512) 512 :=
  c7_history_bounds HistoryTable.new histBoardW histMvW histFailsW 4 c7Res
    (by intro i j; constructor <;> norm_num [HistoryTable.new])
    (by norm_num) rfl

/-! ## Pruning lookup tables (`lookup.rs`) -/

/-- `lookup.rs` `LookUp<T, DEPTH, MOVE>`: a `[[T; MOVE]; DEPTH]` array,
as a list of rows with its dimensions as invariants. -/
structure LookUp (T : Type) (DEPTH MOVE : Nat) where
  table : List (List T)
  hrows : table.length = DEPTH
  hcols : ∀ row ∈ table, row.length = MOVE

/-- `LookUp::get(depth, mv)`:
`self.table[depth.min(DEPTH - 1)][mv.min(MOVE - 1)]`.  Rust slice
indexing is fallible, hence the `Option`. -/
def LookUp.get {T : Type} {DEPTH MOVE : Nat} (l : LookUp T DEPTH MOVE)
    (depth mv : Nat) : Option T :=
  (l.table.get? (min depth (DEPTH - 1))).bind
    fun row => row.get? (min mv (MOVE - 1))

/-- Claim C10: for positive dimensions, `LookUp::get` is total on all
index pairs, including ones at or beyond `DEPTH` and `MOVE`, and returns
the element at `(min(depth, DEPTH-1), min(mv, MOVE-1))`; hence the LMR
and LMP lookups of the search never index out of bounds. -/
theorem c10_lookup_total {T : Type} {DEPTH MOVE : Nat}
    (l : LookUp T DEPTH MOVE) (hD : 0 < DEPTH) (hM : 0 < MOVE)
    (depth mv : Nat) :
    ∃ (hrow : min depth (DEPTH - 1) < l.table.length)
      (hcol : min mv (MOVE - 1)
        < (l.table.get ⟨min depth (DEPTH - 1), hrow⟩).length),
      l.get depth mv
        = some ((l.table.get ⟨min depth (DEPTH - 1), hrow⟩).get
            ⟨min mv (MOVE - 1), hcol⟩) := by
  have hrow : min depth (DEPTH - 1) < l.table.length := by
    rw [l.hrows]; omega
  have hmem : l.table.get ⟨min depth (DEPTH - 1), hrow⟩ ∈ l.table :=
    List.get_mem _ _ hrow
  have hcol : min mv (MOVE - 1)
      < (l.table.get ⟨min depth (DEPTH - 1), hrow⟩).length := by
    rw [l.hcols _ hmem]; omega
  refine ⟨hrow, hcol, ?_⟩
  unfold LookUp.get
  rw [List.get?_eq_get hrow]
  simp only [Option.bind_eq_bind, Option.some_bind]
  rw [List.get?_eq_get hcol]

/-- A concrete 2×2 lookup table for the witness. -/
def lookupW : LookUp Nat 2 2 :=
  { table := [[0, 1], [2, 3]]
    hrows := rfl
    hcols := by intro row h; fin_cases h <;> rfl }

/-- Concrete instantiation of `c10_lookup_total`: out-of-range indices
(5, 7) are clamped to (1, 1). -/
theorem c10_lookup_total_witness : lookupW.get 5 7 = some 3 := by
  obtain ⟨h1, h2, h3⟩ :=
    c10_lookup_total lookupW (by norm_num) (by norm_num) 5 7
  rw [h3]
  rfl

/-! ## Evaluation scores and search fragments (`search.rs`) -/

/-- Modelled from the spec: the mate bound of `bm_eval/eval.rs`, which is
not among the sources.  §3.1: scores above a large constant encode "mate
in k plies" (larger = sooner); the symmetric negative range encodes being
mated. -/
def mateBound : Int := 30000

/-- Modelled from the spec: the score encoding "mated in k plies from the
current node" (sooner = more negative). -/
def matedInScore (k : Nat) : Int := -mateBound + k

/-- Modelled from the spec: `Evaluation::new_checkmate(i)`; for negative
`i` it encodes being mated, with `new_checkmate(-1)` = "mated in 0". -/
def evalNewCheckmate (i : Int) : Int :=
  if i < 0 then -mateBound + (-i - 1) else mateBound - (i - 1)

/-- search.rs lines 578-584: the no-legal-move exit of the move loop.
`move_exists` is set for every move the generator yields other than the
singular-extension skip move; when every yielded move is the skip move
(in particular when none is yielded) the flag stays false and the search
returns the stalemate score 0 or the mated score, with no best move.
`inCheck` is `board.checkers() != BitBoard::EMPTY`. -/
def searchNoMoveExit (genMoves : List CMove) (skipMove : Option CMove)
    (inCheck : Bool) : Option (Option CMove × Int) :=
  if genMoves.all fun m => some m = skipMove then
    some (if !inCheck then ((none : Option CMove), (0 : Int))
      else (none, evalNewCheckmate (-1)))
  else none

/-- Claim C5: when the move loop sees no legal move (every generated move
is the excluded one), the search returns score 0 if not in check and the
mate score encoding "mated in 0" if in check, and in both cases no best
move. -/
theorem c5_no_legal_move (genMoves : List CMove) (skipMove : Option CMove)
    (inCheck : Bool) (h : ∀ m ∈ genMoves, some m = skipMove) :
    searchNoMoveExit genMoves skipMove inCheck
      = some (none, if inCheck then matedInScore 0 else 0) := by
  unfold searchNoMoveExit
  rw [if_pos (by rw [List.all_eq_true]; intro m hm; exact decide_eq_true (h m hm))]
  cases inCheck
  · rfl
  · simp [matedInScore, evalNewCheckmate, mateBound]

/-- Concrete instantiation of `c5_no_legal_move`: an empty generator
sequence with the side to move in check yields "mated in 0" and no
move. -/
theorem c5_no_legal_move_witness :
    searchNoMoveExit [] none true = some (none, matedInScore 0) := by
  have h := c5_no_legal_move [] none true (by intro m hm; cases hm)
  simpa using h

/-- Context of the quiescence move loop (search.rs lines 669-705): the
stand-pat score, the window bound beta, the check status, the capture
test `board.colors(!side_to_move).has(move.to)`, and an oracle giving the
(already negamax-negated) score of the recursive `q_search` call as a
function of the move and the alpha in force.  `Evaluation` arithmetic
(`bm_eval/eval.rs`, not among the sources) is modelled from the spec as
plain integer arithmetic. -/
structure QsCtx where
  standPat : Int
  beta : Int
  inCheck : Bool
  isCapture : CMove → Bool
  recScore : CMove → Int → Int

/-- The loop-carried state: the window's alpha, the best score so far and
the best move so far. -/
structure QsState where
  alpha : Int
  highest : Option Int
  best : Option CMove

/-- One iteration of the quiescence move loop over the generator's
`(move, see)` stream; `Except` models the early `return`s (the SEE-beta
cutoff returning beta, and the beta cutoff returning the score). -/
def qsStep (ctx : QsCtx) (st : QsState) (mse : CMove × Int) :
    Except Int QsState :=
  let m := mse.1
  let see := mse.2
  if ctx.inCheck || ctx.isCapture m then
    if ctx.standPat + see - 200 > ctx.beta then Except.error ctx.beta
    else
      let score := ctx.recScore m st.alpha
      let st1 :=
        match st.highest with
        | none => { st with highest := some score, best := some m }
        | some h =>
          if score > h then { st with highest := some score, best := some m }
          else st
      if score > st1.alpha then
        if score ≥ ctx.beta then Except.error score
        else Except.ok { st1 with alpha := score }
      else Except.ok st1
  else Except.ok st

/-- The quiescence move loop; on normal exit the function returns
`highest_score.unwrap_or(alpha)` (search.rs line 717). -/
def qsLoop (ctx : QsCtx) : List (CMove × Int) → QsState → Int
  | [], st => st.highest.getD st.alpha
  | mse :: rest, st =>
    match qsStep ctx st mse with
    | .error r => r
    | .ok st' => qsLoop ctx rest st'

/-- Folding the loop body over a prefix without an early return. -/
def qsRun (ctx : QsCtx) : List (CMove × Int) → QsState → Except Int QsState
  | [], st => Except.ok st
  | mse :: rest, st =>
    match qsStep ctx st mse with
    | .error r => Except.error r
    | .ok st' => qsRun ctx rest st'

/-- Claim C9: whenever the quiescence move loop reaches a considered move
(in check or a capture) whose SEE satisfies `stand_pat + see - 200 >
beta`, `q_search` returns exactly `beta`, independently of the recursive
search scores. -/
theorem c9_qsearch_see_beta (ctx : QsCtx) (st st' : QsState)
    (pre rest : List (CMove × Int)) (m : CMove) (see : Int)
    (hpre : qsRun ctx pre st = Except.ok st')
    (hcons : (ctx.inCheck || ctx.isCapture m) = true)
    (hsee : ctx.standPat + see - 200 > ctx.beta) :
    qsLoop ctx (pre ++ (m, see) :: rest) st = ctx.beta := by
  induction pre generalizing st with
  | nil =>
    have hstep : qsStep ctx st (m, see) = Except.error ctx.beta := by
      unfold qsStep
      simp only
      rw [if_pos hcons, if_pos hsee]
    rw [List.nil_append]
    unfold qsLoop
    rw [hstep]
  | cons x xs ih =>
    rw [List.cons_append]
    unfold qsRun at hpre
    unfold qsLoop
    cases hx : qsStep ctx st x with
    | error r =>
      rw [hx] at hpre
      cases hpre
    | ok st1 =>
      rw [hx] at hpre
      exact ih st1 hpre

def c9Ctx : QsCtx :=
  { standPat := 100, beta := 50, inCheck := false
    isCapture := fun _ => true, recScore := fun _ _ => 0 }

/-- Concrete instantiation of `c9_qsearch_see_beta`: stand-pat 100, SEE
200, beta 50 — the first considered capture triggers the cutoff and the
loop returns beta = 50. -/
theorem c9_qsearch_see_beta_witness :
    qsLoop c9Ctx [({ src := 0, dst := 1, promotion := none }, 200)]
      { alpha := 0, highest := none, best := none } = 50 :=
  c9_qsearch_see_beta c9Ctx _ _ [] []
    { src := 0, dst := 1, promotion := none } 200 rfl rfl (by norm_num [c9Ctx])

/-! ## Position and NNUE accumulator (`position.rs`, `nnue.rs`) -/

/-- Interface of the external chess library (`cozy_chess`), out of scope
per spec §1: the queries `position.rs` and `nnue.rs` make against boards
(`B`) and moves (`M`).  `rqpAllEmpty` is
`(rooks | queens | pawns) == BitBoard::EMPTY`. -/
structure ChessApi (B M : Type) where
  hash : B → Nat
  halfmoveClock : B → Nat
  occupiedCnt : B → Nat
  rqpAllEmpty : B → Bool
  sideToMove : B → Color
  pieceOn : B → Fin 64 → Option Piece
  colorOn : B → Fin 64 → Option Color
  enPassant : B → Option (Fin 8)
  moveSrc : M → Fin 64
  moveDst : M → Fin 64
  movePromotion : M → Option Piece
  playUnchecked : B → M → B

/-- An `Incremental`/`Psqt` layer of `nnue.rs`.  The layer weights are
generated at build time (`nnue_weights.rs`, not part of the sources) and
the layer state is linear in its active features, so a layer is modelled
by its per-feature activation counts: `incr_ff::<W>(idx)` adds `W` at
`idx`. -/
structure FeatureLayer where
  count : Nat → Int

def FeatureLayer.incrFF (l : FeatureLayer) (w : Int) (idx : Nat) :
    FeatureLayer :=
  ⟨fun i => if i = idx then l.count i + w else l.count i⟩

def FeatureLayer.zero : FeatureLayer := ⟨fun _ => 0⟩

/-- `nnue.rs` `Accumulator`: the six incrementally maintained layers. -/
structure Accumulator where
  wInputLayer : FeatureLayer
  bInputLayer : FeatureLayer
  wResLayer : FeatureLayer
  bResLayer : FeatureLayer
  wPolicyInput : FeatureLayer
  bPolicyInput : FeatureLayer

def Accumulator.zero : Accumulator :=
  ⟨FeatureLayer.zero, FeatureLayer.zero, FeatureLayer.zero,
    FeatureLayer.zero, FeatureLayer.zero, FeatureLayer.zero⟩

/-- `Accumulator::update::<INCR>(sq, piece, color)` (nnue.rs lines
24-46): white-perspective feature `sq + (color·6 + piece)·64`,
black-perspective feature `(sq ^ 56) + (!color·6 + piece)·64`; both
policy layers are fed the black-perspective index, as in the source. -/
def Accumulator.update (acc : Accumulator) (incr : Bool) (sq : Fin 64)
    (piece : Piece) (color : Color) : Accumulator :=
  let wPieceIndex := color.idx * 6 + piece.idx
  let bPieceIndex := color.other.idx * 6 + piece.idx
  let wIndex := sq.val + wPieceIndex * 64
  let bIndex := (sq.val ^^^ 56) + bPieceIndex * 64
  let w : Int := if incr then 1 else -1
  { wInputLayer := acc.wInputLayer.incrFF w wIndex
    wResLayer := acc.wResLayer.incrFF w wIndex
    bInputLayer := acc.bInputLayer.incrFF w bIndex
    bResLayer := acc.bResLayer.incrFF w bIndex
    wPolicyInput := acc.wPolicyInput.incrFF w bIndex
    bPolicyInput := acc.bPolicyInput.incrFF w bIndex }

/-- Modelled from the spec: `MAX_PLY` (this snapshot's `ab_runner.rs`
predates the constant; §9 calls it a compile-time constant of ~128). -/
def MAX_PLY : Nat := 128

/-- `nnue.rs` `Nnue`: `MAX_PLY + 1` preallocated accumulators (modelled
as a total function on indices) and the current head. -/
structure Nnue where
  accumulator : Nat → Accumulator
  head : Nat

def Nnue.zeroed : Nnue := { accumulator := fun _ => Accumulator.zero, head := 0 }

/-- `cozy_chess::Square::new(file, rank)`: index `rank·8 + file`. -/
def squareNew (f : Fin 8) (r : Fin 8) : Fin 64 := ⟨r.val * 8 + f.val, by omega⟩

/-- `Nnue::make_move(board, make_move)` (nnue.rs lines 102-141): copy the
head accumulator into the next slot, advance the head, then incrementally
remove the moving piece from its source, remove any captured piece,
handle en passant and castling, and add the moved (or promoted) piece.
`piece_on(from).unwrap()` is modelled by `Option`. -/
def Nnue.makeMove {B M : Type} (api : ChessApi B M) (nn : Nnue) (board : B)
    (makeMove : M) : Option Nnue :=
  let base := nn.accumulator nn.head
  let fromSq := api.moveSrc makeMove
  match api.pieceOn board fromSq with
  | none => none
  | some fromType =>
    let fromColor := api.sideToMove board
    let acc := base.update false fromSq fromType fromColor
    let toSq := api.moveDst makeMove
    let acc :=
      match api.pieceOn board toSq, api.colorOn board toSq with
      | some captured, some color => acc.update false toSq captured color
      | _, _ => acc
    let acc :=
      match api.enPassant board with
      | some ep =>
        let stmFifth : Fin 8 := match fromColor with | .white => 4 | .black => 3
        let stmSixth : Fin 8 := match fromColor with | .white => 5 | .black => 2
        if fromType = Piece.pawn ∧ toSq = squareNew ep stmSixth then
          acc.update false (squareNew ep stmFifth) Piece.pawn fromColor.other
        else acc
      | none => acc
    let acc :=
      if api.colorOn board toSq = some fromColor then
        let stmFirst : Fin 8 := match fromColor with | .white => 0 | .black => 7
        if fromSq.val % 8 < toSq.val % 8 then
          (acc.update true (squareNew 6 stmFirst) Piece.king fromColor).update
            true (squareNew 5 stmFirst) Piece.rook fromColor
        else
          (acc.update true (squareNew 2 stmFirst) Piece.king fromColor).update
            true (squareNew 3 stmFirst) Piece.rook fromColor
      else
        acc.update true toSq ((api.movePromotion makeMove).getD fromType)
          fromColor
    some { accumulator := Function.update nn.accumulator (nn.head + 1) acc
           head := nn.head + 1 }

/-- `Nnue::unmake_move()`: only the head retreats; the scratch slot above
it keeps its contents. -/
def Nnue.unmakeMove (nn : Nnue) : Nnue := { nn with head := nn.head - 1 }

/-- `Nnue::null_move()`: copy the accumulator unchanged and advance. -/
def Nnue.nullMove (nn : Nnue) : Nnue :=
  { accumulator :=
      Function.update nn.accumulator (nn.head + 1) (nn.accumulator nn.head)
    head := nn.head + 1 }

/-- `position.rs` `Position`: current board, stack of prior boards, and
the NNUE evaluator. -/
structure Position (B : Type) where
  current : B
  boards : List B
  evaluator : Nnue

/-- `Position::make_move`: update the evaluator, push the current board,
play the move. -/
def Position.makeMove {B M : Type} (api : ChessApi B M) (p : Position B)
    (mv : M) : Option (Position B) :=
  match Nnue.makeMove api p.evaluator p.current mv with
  | none => none
  | some ev =>
    some { current := api.playUnchecked p.current mv
           boards := p.boards ++ [p.current]
           evaluator := ev }

/-- `Position::unmake_move`: retreat the evaluator and pop the board
stack (`pop().unwrap()` modelled by `Option`). -/
def Position.unmakeMove {B : Type} (p : Position B) : Option (Position B) :=
  match p.boards.getLast? with
  | none => none
  | some b =>
    some { current := b
           boards := p.boards.dropLast
           evaluator := p.evaluator.unmakeMove }

/-- `Position::half_ply()`. -/
def Position.halfPly {B M : Type} (api : ChessApi B M) (p : Position B) :
    Nat :=
  api.halfmoveClock p.current

/-- `Position::insufficient_material()` (position.rs lines 100-111). -/
def Position.insufficientMaterial {B M : Type} (api : ChessApi B M)
    (p : Position B) : Bool :=
  if api.occupiedCnt p.current = 2 then true
  else if api.occupiedCnt p.current = 3 then api.rqpAllEmpty p.current
  else false

/-- `Position::forced_draw(ply)` (position.rs lines 30-49): insufficient
material, 50-move rule, or the current hash among the boards at reverse
positions `1..=ply` (`rev().skip(1).take(ply)`), or at least twice among
the boards at reverse positions `> ply` (`rev().skip(ply + 1)`). -/
def Position.forcedDraw {B M : Type} (api : ChessApi B M) (p : Position B)
    (ply : Nat) : Bool :=
  if p.insufficientMaterial api || decide (100 ≤ p.halfPly api) then true
  else
    let hash := api.hash p.current
    (((p.boards.reverse.drop 1).take ply).any fun b => api.hash b == hash)
      || decide (2 ≤ ((p.boards.reverse.drop (ply + 1)).filter
          fun b => api.hash b == hash).length)

/-- The draw predicate exactly as claim C4 words it: the current hash
matches an earlier board within `ply` plies (reverse positions
`0..<ply`), or appears at least twice among the boards before that window
(reverse positions `≥ ply`), or the 50-move rule applies, or material is
insufficient. -/
def claimForcedDraw {B M : Type} (api : ChessApi B M) (p : Position B)
    (ply : Nat) : Bool :=
  p.insufficientMaterial api || decide (100 ≤ p.halfPly api)
    || ((p.boards.reverse.take ply).any
        fun b => api.hash b == api.hash p.current)
    || decide (2 ≤ ((p.boards.reverse.drop ply).filter
        fun b => api.hash b == api.hash p.current).length)

/-- Modelled from the spec: `Evaluation::min()` of the missing
`bm_eval/eval.rs`, the sentinel returned on abort. -/
def evalMin : Int := -(mateBound + 1)

/-- search.rs lines 56-65: the abort and forced-draw early exits of
`search`; `none` means the search continues past these checks. -/
def searchEarlyExit {B M : Type} (api : ChessApi B M) (abortFlag : Bool)
    (p : Position B) (ply : Nat) : Option (Option M × Int) :=
  if (ply != 0) && abortFlag then some (none, evalMin)
  else if (ply != 0) && p.forcedDraw api ply then some (none, 0)
  else none

/-- The list has an element satisfying `pred` at index `i`. -/
def matchAt {α : Type} (pred : α → Bool) (l : List α) (i : Nat) : Prop :=
  ∃ x, l[i]? = some x ∧ pred x = true

theorem matchAt_cons_zero {α : Type} {pred : α → Bool} {a : α}
    {t : List α} : matchAt pred (a :: t) 0 ↔ pred a = true := by
  simp [matchAt]

theorem matchAt_cons_succ {α : Type} {pred : α → Bool} {a : α}
    {t : List α} {i : Nat} :
    matchAt pred (a :: t) (i + 1) ↔ matchAt pred t i := by
  simp [matchAt]

theorem matchAt_drop {α : Type} {pred : α → Bool} {l : List α}
    {a i : Nat} : matchAt pred (l.drop a) i ↔ matchAt pred l (a + i) := by
  simp [matchAt, List.getElem?_drop]

theorem one_le_filter_iff {α : Type} (pred : α → Bool) (l : List α) :
    1 ≤ (l.filter pred).length ↔ ∃ i, matchAt pred l i := by
  constructor
  · intro h
    have hne : l.filter pred ≠ [] := by
      intro hnil
      rw [hnil] at h
      simp at h
    obtain ⟨x, hx⟩ := List.exists_mem_of_ne_nil _ hne
    obtain ⟨hmem, hpx⟩ := List.mem_filter.mp hx
    obtain ⟨i, hi⟩ := List.mem_iff_getElem?.mp hmem
    exact ⟨i, x, hi, hpx⟩
  · rintro ⟨i, x, hi, hpx⟩
    have hmem : x ∈ l.filter pred :=
      List.mem_filter.mpr ⟨List.mem_iff_getElem?.mpr ⟨i, hi⟩, hpx⟩
    have := List.length_pos.mpr (List.ne_nil_of_mem hmem)
    omega

theorem two_le_filter_iff {α : Type} (pred : α → Bool) (l : List α) :
    2 ≤ (l.filter pred).length ↔
      ∃ i j, i < j ∧ matchAt pred l i ∧ matchAt pred l j := by
  induction l with
  | nil =>
    constructor
    · intro h; simp at h
    · rintro ⟨i, j, _, ⟨x, hx, _⟩, _⟩; simp at hx
  | cons a t ih =>
    cases hp : pred a with
    | true =>
      rw [List.filter_cons_of_pos hp]
      simp only [List.length_cons]
      constructor
      · intro h
        obtain ⟨i, hi⟩ := (one_le_filter_iff pred t).mp (by omega)
        exact ⟨0, i + 1, by omega, matchAt_cons_zero.mpr hp,
          matchAt_cons_succ.mpr hi⟩
      · rintro ⟨i, j, hij, _, hmj⟩
        obtain ⟨j', rfl⟩ : ∃ j', j = j' + 1 := ⟨j - 1, by omega⟩
        have h1 := (one_le_filter_iff pred t).mpr
          ⟨j', matchAt_cons_succ.mp hmj⟩
        omega
    | false =>
      rw [List.filter_cons_of_neg (by simp [hp])]
      rw [ih]
      constructor
      · rintro ⟨i, j, hij, hmi, hmj⟩
        exact ⟨i + 1, j + 1, by omega, matchAt_cons_succ.mpr hmi,
          matchAt_cons_succ.mpr hmj⟩
      · rintro ⟨i, j, hij, hmi, hmj⟩
        cases i with
        | zero =>
          rw [matchAt_cons_zero] at hmi
          rw [hmi] at hp
          cases hp
        | succ i' =>
          obtain ⟨j', rfl⟩ : ∃ j', j = j' + 1 := ⟨j - 1, by omega⟩
          exact ⟨i', j', by omega, matchAt_cons_succ.mp hmi,
            matchAt_cons_succ.mp hmj⟩

/-- `((l.drop a).take b).any pred` scans exactly the indices
`a ≤ j < a + b` of `l`. -/
theorem any_drop_take_iff {α : Type} (pred : α → Bool) (l : List α)
    (a b : Nat) :
    ((l.drop a).take b).any pred = true ↔
      ∃ j, a ≤ j ∧ j < a + b ∧ matchAt pred l j := by
  rw [List.any_eq_true]
  constructor
  · rintro ⟨x, hx, hpx⟩
    obtain ⟨n, hn⟩ := List.mem_iff_getElem?.mp hx
    have hlen := (List.getElem?_eq_some.mp hn).1
    rw [List.length_take, List.length_drop] at hlen
    have hnb : n < b := by omega
    rw [List.getElem?_take_of_lt hnb, List.getElem?_drop] at hn
    exact ⟨a + n, by omega, by omega, x, hn, hpx⟩
  · rintro ⟨j, hj1, hj2, x, hx, hpx⟩
    refine ⟨x, List.mem_iff_getElem?.mpr ⟨j - a, ?_⟩, hpx⟩
    rw [List.getElem?_take_of_lt (by omega), List.getElem?_drop,
      show a + (j - a) = j by omega]
    exact hx

/-- Counting matches in `l.drop a` is counting matches of `l` at indices
`≥ a`. -/
theorem two_le_filter_drop_iff {α : Type} (pred : α → Bool) (l : List α)
    (a : Nat) :
    2 ≤ ((l.drop a).filter pred).length ↔
      ∃ j k, j < k ∧ a ≤ j ∧ a ≤ k ∧ matchAt pred l j ∧ matchAt pred l k := by
  rw [two_le_filter_iff]
  constructor
  · rintro ⟨i, j, hij, hmi, hmj⟩
    exact ⟨a + i, a + j, by omega, by omega, by omega,
      matchAt_drop.mp hmi, matchAt_drop.mp hmj⟩
  · rintro ⟨j, k, hjk, haj, hak, hmj, hmk⟩
    refine ⟨j - a, k - a, by omega, ?_, ?_⟩
    · rw [matchAt_drop, show a + (j - a) = j by omega]; exact hmj
    · rw [matchAt_drop, show a + (k - a) = k by omega]; exact hmk

/-- Claim C4, amended draw characterization: besides insufficient
material and the 50-move rule, the current hash must match a board at
reverse-stack index 1 through `ply` (i.e. 2 through `ply + 1` plies
back — the code skips the most recent board), or match at least two
boards at reverse-stack indices greater than `ply`. -/
def specForcedDrawFixed {B M : Type} (api : ChessApi B M) (p : Position B)
    (ply : Nat) : Prop :=
  p.insufficientMaterial api = true ∨ 100 ≤ p.halfPly api
    ∨ (∃ j, 1 ≤ j ∧ j ≤ ply ∧
        matchAt (fun b => api.hash b == api.hash p.current)
          p.boards.reverse j)
    ∨ (∃ j k, j < k ∧ ply + 1 ≤ j ∧ ply + 1 ≤ k ∧
        matchAt (fun b => api.hash b == api.hash p.current)
          p.boards.reverse j ∧
        matchAt (fun b => api.hash b == api.hash p.current)
          p.boards.reverse k)

/-- Claim C4, amended: at ply > 0 with no abort, the search's draw check
returns score 0 with no move exactly when `forced_draw` holds, and
`forced_draw` holds exactly when the corrected characterization does
(window shifted by one: distances 2 to ply+1, repetitions counted beyond
that). -/
theorem c4_draw_check {B M : Type} (api : ChessApi B M) (p : Position B)
    (ply : Nat) (hply : ply ≠ 0) :
    (searchEarlyExit api false p ply
        = some ((none : Option M), (0 : Int))
      ↔ p.forcedDraw api ply = true)
    ∧ (p.forcedDraw api ply = true ↔ specForcedDrawFixed api p ply) := by
  constructor
  · unfold searchEarlyExit
    have h0 : (ply != 0) = true := by simpa using hply
    rw [h0]
    simp only [Bool.true_and, Bool.and_false, Bool.false_eq_true, if_false]
    by_cases hd : p.forcedDraw api ply
    · rw [if_pos hd]
      simp [hd]
    · rw [if_neg hd]
      simp only [Bool.not_eq_true] at hd
      simp [hd]
  · unfold Position.forcedDraw specForcedDrawFixed
    cases hcond : (p.insufficientMaterial api
        || decide (100 ≤ p.halfPly api)) with
    | true =>
      rw [if_pos rfl]
      rcases Bool.or_eq_true_iff.mp hcond with h | h
      · simp [h]
      · have := of_decide_eq_true h
        simp [this]
    | false =>
      rw [if_neg (by simp)]
      obtain ⟨h1, h2⟩ := Bool.or_eq_false_iff.mp hcond
      have h2' : ¬(100 ≤ p.halfPly api) := of_decide_eq_false h2
      rw [Bool.or_eq_true_iff]
      rw [any_drop_take_iff, decide_eq_true_eq, two_le_filter_drop_iff]
      constructor
      · rintro (⟨j, hj1, hj2, hm⟩ | ⟨j, k, hjk, hj, hk, hmj, hmk⟩)
        · exact Or.inr (Or.inr (Or.inl ⟨j, hj1, by omega, hm⟩))
        · exact Or.inr (Or.inr (Or.inr ⟨j, k, hjk, by omega, by omega,
            hmj, hmk⟩))
      · rintro (h | h | ⟨j, hj1, hj2, hm⟩ | ⟨j, k, hjk, hj, hk, hmj, hmk⟩)
        · rw [h1] at h; cases h
        · exact absurd h h2'
        · exact Or.inl ⟨j, hj1, by omega, hm⟩
        · exact Or.inr ⟨j, k, hjk, by omega, by omega, hmj, hmk⟩

/-- A minimal concrete chess interface for the draw-check claims: a board
is its hash (`B = Nat`), moves are irrelevant. -/
def natApi : ChessApi Nat Unit :=
  { hash := id, halfmoveClock := fun _ => 0, occupiedCnt := fun _ => 32
    rqpAllEmpty := fun _ => false, sideToMove := fun _ => .white
    pieceOn := fun _ _ => none, colorOn := fun _ _ => none
    enPassant := fun _ => none, moveSrc := fun _ => 0, moveDst := fun _ => 0
    movePromotion := fun _ => none, playUnchecked := fun b _ => b }

/-- A position whose hash (7) recurs two plies back: stack `[7, 3]`,
current board 7. -/
def drawPos : Position Nat :=
  { current := 7, boards := [7, 3], evaluator := Nnue.zeroed }

/-- Claim C4 is false as stated: at ply 1 the current hash matches the
board two plies back; the code's window (`rev().skip(1).take(1)`) sees it
and the search returns 0, but the claimed window ("within 1 ply") does
not contain it and the claimed before-window count is only 1. -/
theorem c4_draw_check_cex :
    searchEarlyExit natApi false drawPos 1
        = some ((none : Option Unit), (0 : Int))
      ∧ claimForcedDraw natApi drawPos 1 = false := by
  exact ⟨rfl, rfl⟩

/-- Concrete instantiation of `c4_draw_check`: `forced_draw` holds on
`drawPos` at ply 1 and the draw check returns `(None, 0)`. -/
theorem c4_draw_check_witness :
    drawPos.forcedDraw natApi 1 = true
      ∧ searchEarlyExit natApi false drawPos 1
        = some ((none : Option Unit), (0 : Int)) := by
  have h := c4_draw_check natApi drawPos 1 (by norm_num)
  exact ⟨by decide, h.1.mpr (by decide)⟩

/-- `Nnue::make_move` always writes slot `head + 1` and advances the
head. -/
theorem Nnue.makeMove_shape {B M : Type} (api : ChessApi B M) (nn : Nnue)
    (board : B) (mv : M) (ev : Nnue)
    (h : Nnue.makeMove api nn board mv = some ev) :
    ∃ acc, ev =
      { accumulator := Function.update nn.accumulator (nn.head + 1) acc,
        head := nn.head + 1 } := by
  simp only [Nnue.makeMove] at h
  cases hbp : api.pieceOn board (api.moveSrc mv) with
  | none => rw [hbp] at h; cases h
  | some fromType =>
    rw [hbp] at h
    simp only at h
    injection h with h'
    exact ⟨_, h'.symm⟩

/-- Claim C3, amended: `make_move` followed by `unmake_move` restores the
board, the board stack, the accumulator head and every accumulator slot
other than the scratch slot `head + 1`; that slot keeps the values the
make wrote into it. -/
theorem c3_make_unmake {B M : Type} (api : ChessApi B M)
    (p p1 p2 : Position B) (mv : M)
    (h1 : p.makeMove api mv = some p1) (h2 : p1.unmakeMove = some p2) :
    p2.current = p.current ∧ p2.boards = p.boards
      ∧ p2.evaluator.head = p.evaluator.head
      ∧ ∀ i, i ≠ p.evaluator.head + 1 →
          p2.evaluator.accumulator i = p.evaluator.accumulator i := by
  unfold Position.makeMove at h1
  cases hnn : Nnue.makeMove api p.evaluator p.current mv with
  | none => rw [hnn] at h1; cases h1
  | some ev =>
    rw [hnn] at h1
    injection h1 with h1'
    obtain ⟨acc, hacc⟩ := Nnue.makeMove_shape api _ _ _ _ hnn
    subst hacc
    subst h1'
    unfold Position.unmakeMove at h2
    rw [List.getLast?_concat] at h2
    simp only at h2
    injection h2 with h2'
    subst h2'
    refine ⟨rfl, List.dropLast_concat, ?_, ?_⟩
    · show p.evaluator.head + 1 - 1 = p.evaluator.head
      omega
    · intro i hi
      show Function.update p.evaluator.accumulator
        (p.evaluator.head + 1) acc i = p.evaluator.accumulator i
      exact Function.update_noteq hi _ _

/-- A concrete chess interface over trivial boards for the make/unmake
claims: one pawn on square 0, every move goes 0 → 1. -/
def unitApi : ChessApi Unit Unit :=
  { hash := fun _ => 0, halfmoveClock := fun _ => 0
    occupiedCnt := fun _ => 2, rqpAllEmpty := fun _ => true
    sideToMove := fun _ => .white
    pieceOn := fun _ sq => if sq = (0 : Fin 64) then some .pawn else none
    colorOn := fun _ _ => none, enPassant := fun _ => none
    moveSrc := fun _ => 0, moveDst := fun _ => 1
    movePromotion := fun _ => none, playUnchecked := fun b _ => b }

def unitPos : Position Unit :=
  { current := (), boards := [], evaluator := Nnue.zeroed }

def c3Round : Option (Position Unit) :=
  (unitPos.makeMove unitApi ()).bind Position.unmakeMove

/-- Claim C3 is false as stated: after make + unmake the scratch
accumulator slot 1 holds the incrementally updated values (feature 1 has
count 1), not its prior zero contents, so the position is not
byte-identical to its initial state. -/
theorem c3_make_unmake_cex :
    (c3Round.map fun q => (q.evaluator.accumulator 1).wInputLayer.count 1)
        = some 1
      ∧ ((unitPos.evaluator.accumulator 1).wInputLayer.count 1) = 0
      ∧ c3Round ≠ some unitPos := by
  refine ⟨rfl, rfl, ?_⟩
  intro h
  have e1 : (c3Round.map
      fun q => (q.evaluator.accumulator 1).wInputLayer.count 1)
      = some 1 := rfl
  rw [h] at e1
  have e2 : ((some unitPos).map
      fun q => (q.evaluator.accumulator 1).wInputLayer.count 1)
      = some 0 := rfl
  rw [e2] at e1
  simp at e1

def c3P1 : Position Unit := (unitPos.makeMove unitApi ()).getD unitPos

def c3P2 : Position Unit := c3P1.unmakeMove.getD unitPos

/-- Concrete instantiation of `c3_make_unmake`: board, stack, head and
the live slot 0 are restored. -/
theorem c3_make_unmake_witness :
    c3P2.current = unitPos.current ∧ c3P2.boards = unitPos.boards
      ∧ c3P2.evaluator.head = unitPos.evaluator.head
      ∧ c3P2.evaluator.accumulator 0 = unitPos.evaluator.accumulator 0 := by
  have h := c3_make_unmake unitApi unitPos c3P1 c3P2 () rfl rfl
  exact ⟨h.1, h.2.1, h.2.2.1, h.2.2.2 0 (by norm_num)⟩

/-! ## Ordered move generator (`move_gen.rs`) -/

/-- `move_gen.rs` `THRESHOLD = -(2^10)`. -/
def MG_THRESHOLD : Int := -1024

/-- `move_gen.rs` `LOSING_CAPTURE = -(2^12)`. -/
def LOSING_CAPTURE : Int := -4096

/-- `move_gen.rs` `GenType`, in declaration order. -/
inductive GenType
  | pvMove
  | calcCaptures
  | captures
  | genQuiet
  | counterMove
  | killer
  | threatMove
  | quiet
deriving DecidableEq, Repr

def pieceFin : Piece → Fin 6
  | .pawn => 0
  | .knight => 1
  | .bishop => 2
  | .rook => 3
  | .queen => 4
  | .king => 5

/-- `h_table.rs` `DoubleMoveHistory` (counter-move history). -/
structure DoubleMoveHistory where
  table : Fin 12 → Fin 64 → Fin 6 → Fin 64 → Int

def DoubleMoveHistory.new : DoubleMoveHistory := ⟨fun _ _ _ _ => 0⟩

/-- `DoubleMoveHistory::get(color, piece_0, to_0, piece_1, to_1)`. -/
def DoubleMoveHistory.get (t : DoubleMoveHistory) (color : Color)
    (piece0 : Piece) (to0 : Fin 64) (piece1 : Piece) (to1 : Fin 64) : Int :=
  t.table (pieceIndexFin color piece0) to0 (pieceFin piece1) to1

/-- The board context of the ordered move generator: side to move, the
opponent-occupancy test `colors(!side_to_move).has(sq)` and piece
placement.  Modelled from the spec: `StdEvaluator::see::<N>`
(`bm_eval/evaluator.rs` is not among the sources) is an opaque function
of the SEE depth limit and the move. -/
structure GBoard where
  sideToMove : Color
  oppColorHas : Fin 64 → Bool
  pieceOn : Fin 64 → Option Piece
  see : Nat → CMove → Int

/-- `cozy_chess::PieceMoves`: the moves of one piece from one square.
The library's iterator expands the `to`-bitboard (promotions included)
into `expand`; masking the bitboard then iterating equals filtering the
expansion on the destination square. -/
structure PieceMoves where
  piece : Piece
  src : Fin 64
  expand : List CMove

/-- `move_gen.rs` `OrderedMoveGen`.  Queue scores are kept as unbounded
integers. -/
structure OrderedMoveGen where
  moveList : List PieceMoves
  pvMove : Option CMove
  threatMoveEntry : List CMove
  killerEntry : List CMove
  counterMove : Option CMove
  prevMove : Option CMove
  genType : GenType
  board : GBoard
  queue : List (CMove × Int × Option Int)

/-- `OrderedMoveGen::new`; `board.generate_moves` belongs to the external
library, so the generated `move_list` is a parameter. -/
def OrderedMoveGen.new (board : GBoard) (moveList : List PieceMoves)
    (pvMove counterMove prevMove : Option CMove)
    (threatMoveEntry killerEntry : List CMove) : OrderedMoveGen :=
  { genType := .pvMove
    moveList := moveList
    counterMove := counterMove
    prevMove := prevMove
    pvMove := pvMove
    threatMoveEntry := threatMoveEntry
    killerEntry := killerEntry
    board := board
    queue := [] }

/-- `ArrayVec::swap_remove(i)`: overwrite index `i` with the last element
and pop. -/
def swapRemove {α : Type} (l : List α) (i : Nat) : List α :=
  match l.getLast? with
  | none => l
  | some last => (l.set i last).dropLast

/-- `queue.iter().position(|(cmp_move, _, _)| mv == *cmp_move)`. -/
def findInQueue (queue : List (CMove × Int × Option Int)) (mv : CMove) :
    Option Nat :=
  queue.findIdx? fun e => e.1 == mv

/-- The selection loop of the `Captures` stage (move_gen.rs lines
108-122): scan the queue tracking the running max and best index,
lazily evaluating SEE on entries above the max; negative-SEE entries get
the losing-capture penalty and are skipped.  Returns the rewritten queue
and the selected index. -/
def capturesScan (board : GBoard) :
    List (CMove × Int × Option Int) → Int → Option Nat → Nat →
      List (CMove × Int × Option Int) × Option Nat
  | [], _, best, _ => ([], best)
  | (mv, score, see) :: rest, mx, best, idx =>
    if score > mx then
      let seeScore := see.getD (board.see 16 mv)
      if seeScore < 0 then
        let r := capturesScan board rest mx best (idx + 1)
        ((mv, score + LOSING_CAPTURE, some seeScore) :: r.1, r.2)
      else
        let r := capturesScan board rest score (some idx) (idx + 1)
        ((mv, score, some seeScore) :: r.1, r.2)
    else
      let r := capturesScan board rest mx best (idx + 1)
      ((mv, score, see) :: r.1, r.2)

/-- The selection loop of the `Quiet` stage (move_gen.rs lines 210-217):
pick the highest-scored entry (the first entry unconditionally). -/
def quietScan : List (CMove × Int × Option Int) → Int → Option Nat → Nat →
    Option Nat
  | [], _, best, _ => best
  | (_, score, _) :: rest, mx, best, idx =>
    if best.isNone || decide (score > mx) then
      quietScan rest score (some idx) (idx + 1)
    else quietScan rest mx best (idx + 1)

/-- The `Killer` stage loop: first killer present in the queue, with its
queue index. -/
def killerScan (queue : List (CMove × Int × Option Int)) :
    List CMove → Option (CMove × Nat)
  | [] => none
  | k :: rest =>
    match findInQueue queue k with
    | some i => some (k, i)
    | none => killerScan queue rest

/-- The `ThreatMove` stage loop over the consuming iterator: first threat
move present in the queue, its queue index, and the rest of the entry. -/
def threatScan (queue : List (CMove × Int × Option Int)) :
    List CMove → Option (CMove × Nat × List CMove)
  | [] => none
  | t :: rest =>
    match findInQueue queue t with
    | some i => some (t, i, rest)
    | none => threatScan queue rest

/-- The score of a quiet non-promotion move (move_gen.rs lines 148-162):
history plus, when a previous move exists, counter-move history; the
previous piece defaults to the king as in
`piece_on(prev.to).unwrap_or(Piece::King)`. -/
def quietScore (board : GBoard) (hist : HistoryTable)
    (cmHist : DoubleMoveHistory) (prevMove : Option CMove) (piece : Piece)
    (mv : CMove) : Int :=
  let base := hist.get board.sideToMove piece mv.dst
  match prevMove with
  | some prev =>
    let prevPiece := (board.pieceOn prev.dst).getD .king
    base + cmHist.get board.sideToMove prevPiece prev.dst piece mv.dst
  | none => base

/-- One quiet move of the `GenQuiet` stage: `none` models the
`piece_on(from).unwrap()` panic, `some none` a skipped pv duplicate,
`some (some e)` a queue push (queen promotions score `i16::MAX`,
under-promotions `i16::MIN`). -/
def genQuietEntry (board : GBoard) (pvMove prevMove : Option CMove)
    (hist : HistoryTable) (cmHist : DoubleMoveHistory) (mv : CMove) :
    Option (Option (CMove × Int × Option Int)) :=
  if some mv = pvMove then some none
  else
    match mv.promotion with
    | some piece =>
      match piece with
      | .queen => some (some (mv, 32767, none))
      | _ => some (some (mv, -32768, none))
    | none =>
      match board.pieceOn mv.src with
      | none => none
      | some piece =>
        some (some (mv, quietScore board hist cmHist prevMove piece mv, none))

def collectQuiet (board : GBoard) (pvMove prevMove : Option CMove)
    (hist : HistoryTable) (cmHist : DoubleMoveHistory) :
    List CMove → Option (List (CMove × Int × Option Int))
  | [] => some []
  | mv :: rest =>
    match genQuietEntry board pvMove prevMove hist cmHist mv with
    | none => none
    | some none => collectQuiet board pvMove prevMove hist cmHist rest
    | some (some e) =>
      (collectQuiet board pvMove prevMove hist cmHist rest).map (e :: ·)

/-- All queue pushes of the `GenQuiet` stage (move_gen.rs lines 129-166):
per piece, the expansion restricted to non-opponent destinations
(`to &= !colors(!stm)`). -/
def genQuietAdds (board : GBoard) (pvMove prevMove : Option CMove)
    (hist : HistoryTable) (cmHist : DoubleMoveHistory) :
    List PieceMoves → Option (List (CMove × Int × Option Int))
  | [] => some []
  | pm :: rest =>
    match collectQuiet board pvMove prevMove hist cmHist
        (pm.expand.filter fun mv => !(board.oppColorHas mv.dst)) with
    | none => none
    | some es =>
      (genQuietAdds board pvMove prevMove hist cmHist rest).map (es ++ ·)

/-- `PvMove` stage (move_gen.rs lines 74-89): move on to `CalcCaptures`;
emit the pv move if it is among the generated moves, else forget it. -/
def stagePv (g : OrderedMoveGen) :
    Except (Option CMove × OrderedMoveGen) OrderedMoveGen :=
  if g.genType = GenType.pvMove then
    let g1 := { g with genType := GenType.calcCaptures }
    match g.pvMove with
    | some pv =>
      if g.moveList.any fun pm => pm.src == pv.src && pm.expand.contains pv
      then Except.error (some pv, g1)
      else Except.ok { g1 with pvMove := none }
    | none => Except.ok g1
  else Except.ok g

/-- `CalcCaptures` stage (move_gen.rs lines 90-106): push every capture
(destination on an opponent piece), scored by capture history plus
`32·SEE`, skipping the pv move; move on to `Captures`. -/
def stageCalcCaptures (g : OrderedMoveGen) (cHist : HistoryTable) :
    OrderedMoveGen :=
  if g.genType = GenType.calcCaptures then
    let adds := g.moveList.flatMap fun pm =>
      (pm.expand.filter fun mv => g.board.oppColorHas mv.dst).filterMap
        fun mv =>
          if some mv = g.pvMove then none
          else some (mv,
            cHist.get g.board.sideToMove pm.piece mv.dst
              + g.board.see 2 mv * 32, none)
    { g with queue := g.queue ++ adds, genType := GenType.captures }
  else g

/-- `Captures` stage (move_gen.rs lines 107-128): emit the scan's best
entry above the threshold, else move on to `GenQuiet`. -/
def stageCaptures (g : OrderedMoveGen) :
    Option (Except (Option CMove × OrderedMoveGen) OrderedMoveGen) :=
  if g.genType = GenType.captures then
    match capturesScan g.board g.queue MG_THRESHOLD none 0 with
    | (queue', some idx) =>
      match queue'[idx]? with
      | some e =>
        some (Except.error (some e.1, { g with queue := swapRemove queue' idx }))
      | none => none
    | (queue', none) =>
      some (Except.ok { g with queue := queue', genType := GenType.genQuiet })
  else some (Except.ok g)

/-- `GenQuiet` stage (move_gen.rs lines 129-168): push all quiets and
move on to `Killer`. -/
def stageGenQuiet (g : OrderedMoveGen) (hist : HistoryTable)
    (cmHist : DoubleMoveHistory) : Option OrderedMoveGen :=
  if g.genType = GenType.genQuiet then
    match genQuietAdds g.board g.pvMove g.prevMove hist cmHist g.moveList with
    | none => none
    | some adds =>
      some { g with queue := g.queue ++ adds, genType := GenType.killer }
  else some g

/-- `Killer` stage (move_gen.rs lines 170-182): emit a killer found in
the queue (staying in `Killer`), else move on to `CounterMove`. -/
def stageKiller (g : OrderedMoveGen) :
    Except (Option CMove × OrderedMoveGen) OrderedMoveGen :=
  if g.genType = GenType.killer then
    match killerScan g.queue g.killerEntry with
    | some ki =>
      Except.error (some ki.1, { g with queue := swapRemove g.queue ki.2 })
    | none => Except.ok { g with genType := GenType.counterMove }
  else Except.ok g

/-- `CounterMove` stage (move_gen.rs lines 183-195): the stage FIRST sets
`gen_type = Quiet` (line 184, which leaves the queue untouched), then
possibly emits the counter move from the queue. -/
def stageCounterMove (g : OrderedMoveGen) :
    Except (Option CMove × OrderedMoveGen) OrderedMoveGen :=
  if g.genType = GenType.counterMove then
    match g.counterMove with
    | some cm =>
      match findInQueue g.queue cm with
      | some i =>
        Except.error (some cm,
          { g with genType := GenType.quiet, queue := swapRemove g.queue i })
      | none => Except.ok { g with genType := GenType.quiet }
    | none => Except.ok { g with genType := GenType.quiet }
  else Except.ok g

/-- `ThreatMove` stage (move_gen.rs lines 196-208): emit a cached threat
move found in the queue, else move on to `Quiet`. -/
def stageThreat (g : OrderedMoveGen) :
    Except (Option CMove × OrderedMoveGen) OrderedMoveGen :=
  if g.genType = GenType.threatMove then
    match threatScan g.queue g.threatMoveEntry with
    | some tir =>
      Except.error (some tir.1,
        { g with queue := swapRemove g.queue tir.2.1
                 threatMoveEntry := tir.2.2 })
    | none => Except.ok { g with threatMoveEntry := [], genType := GenType.quiet }
  else Except.ok g

/-- `Quiet` stage (move_gen.rs lines 209-223) plus the final `None` of
line 224. -/
def stageQuiet (g : OrderedMoveGen) :
    Option (Option CMove × OrderedMoveGen) :=
  if g.genType = GenType.quiet then
    match quietScan g.queue 0 none 0 with
    | some idx =>
      match g.queue[idx]? with
      | some e => some (some e.1, { g with queue := swapRemove g.queue idx })
      | none => none
    | none => some (none, g)
  else some (none, g)

/-- `OrderedMoveGen::next(hist, c_hist, cm_hist)`: the stage blocks in
source order; `none` models an index/unwrap panic. -/
def OrderedMoveGen.next (g : OrderedMoveGen) (hist cHist : HistoryTable)
    (cmHist : DoubleMoveHistory) : Option (Option CMove × OrderedMoveGen) :=
  match stagePv g with
  | .error r => some r
  | .ok g =>
    let g := stageCalcCaptures g cHist
    match stageCaptures g with
    | none => none
    | some (.error r) => some r
    | some (.ok g) =>
      match stageGenQuiet g hist cmHist with
      | none => none
      | some g =>
        match stageKiller g with
        | .error r => some r
        | .ok g =>
          match stageCounterMove g with
          | .error r => some r
          | .ok g =>
            match stageThreat g with
            | .error r => some r
            | .ok g => stageQuiet g

/-- The generator state carried by either outcome of a stage. -/
def outGen (x : Except (Option CMove × OrderedMoveGen) OrderedMoveGen) :
    OrderedMoveGen :=
  match x with
  | .ok g => g
  | .error r => r.2

theorem stagePv_out (g : OrderedMoveGen)
    (hg : g.genType ≠ GenType.threatMove) :
    (outGen (stagePv g)).genType ≠ GenType.threatMove := by
  unfold stagePv
  split
  · split
    · split
      · simp [outGen]
      · simp [outGen]
    · simp [outGen]
  · simpa [outGen] using hg

theorem stageCalcCaptures_out (g : OrderedMoveGen) (cHist : HistoryTable)
    (hg : g.genType ≠ GenType.threatMove) :
    (stageCalcCaptures g cHist).genType ≠ GenType.threatMove := by
  unfold stageCalcCaptures
  split
  · simp
  · exact hg

theorem stageCaptures_out (g : OrderedMoveGen)
    (hg : g.genType ≠ GenType.threatMove) (x)
    (hx : stageCaptures g = some x) :
    (outGen x).genType ≠ GenType.threatMove := by
  unfold stageCaptures at hx
  split at hx
  · split at hx
    · split at hx
      · injection hx with hx'
        subst hx'
        simpa [outGen] using hg
      · cases hx
    · injection hx with hx'
      subst hx'
      simp [outGen]
  · injection hx with hx'
    subst hx'
    simpa [outGen] using hg

theorem stageGenQuiet_out (g : OrderedMoveGen) (hist : HistoryTable)
    (cmHist : DoubleMoveHistory) (hg : g.genType ≠ GenType.threatMove)
    (g1 : OrderedMoveGen) (hx : stageGenQuiet g hist cmHist = some g1) :
    g1.genType ≠ GenType.threatMove := by
  unfold stageGenQuiet at hx
  split at hx
  · split at hx
    · cases hx
    · injection hx with hx'
      subst hx'
      simp
  · injection hx with hx'
    subst hx'
    exact hg

theorem stageKiller_out (g : OrderedMoveGen)
    (hg : g.genType ≠ GenType.threatMove) :
    (outGen (stageKiller g)).genType ≠ GenType.threatMove := by
  unfold stageKiller
  split
  · split
    · simpa [outGen] using hg
    · simp [outGen]
  · simpa [outGen] using hg

theorem stageCounterMove_out (g : OrderedMoveGen)
    (hg : g.genType ≠ GenType.threatMove) :
    (outGen (stageCounterMove g)).genType ≠ GenType.threatMove := by
  unfold stageCounterMove
  split
  · split
    · split
      · simp [outGen]
      · simp [outGen]
    · simp [outGen]
  · simpa [outGen] using hg

/-- A generator not in the `ThreatMove` stage passes the threat block
untouched. -/
theorem stageThreat_skip (g : OrderedMoveGen)
    (hg : g.genType ≠ GenType.threatMove) : stageThreat g = Except.ok g := by
  unfold stageThreat
  rw [if_neg hg]

theorem stageQuiet_out (g : OrderedMoveGen) (r : Option CMove)
    (g1 : OrderedMoveGen) (hx : stageQuiet g = some (r, g1)) :
    g1.genType = g.genType := by
  unfold stageQuiet at hx
  split at hx
  · split at hx
    · split at hx
      · injection hx with hx'
        cases hx'
        rfl
      · cases hx
    · injection hx with hx'
      cases hx'
      rfl
  · injection hx with hx'
    cases hx'
    rfl

/-- Claim C8, amended: the `ThreatMove` stage of `OrderedMoveGen::next`
is unreachable.  A fresh generator starts in `PvMove`, and `next` never
moves a generator whose stage is not `ThreatMove` into `ThreatMove`: the
`CounterMove` block transitions directly to `Quiet` (move_gen.rs line
184), so cached null-move refutations receive no dedicated emission and
are only emitted by score like any other quiet. -/
theorem c8_threat_stage (board : GBoard) (moveList : List PieceMoves)
    (pv cm prev : Option CMove) (tme ke : List CMove)
    (g : OrderedMoveGen) (hist cHist : HistoryTable)
    (cmHist : DoubleMoveHistory) (r : Option CMove) (g' : OrderedMoveGen)
    (hg : g.genType ≠ GenType.threatMove)
    (hnext : g.next hist cHist cmHist = some (r, g')) :
    (OrderedMoveGen.new board moveList pv cm prev tme ke).genType
        = GenType.pvMove
      ∧ g'.genType ≠ GenType.threatMove := by
  refine ⟨rfl, ?_⟩
  unfold OrderedMoveGen.next at hnext
  cases hpv : stagePv g with
  | error r0 =>
    rw [hpv] at hnext
    simp only at hnext
    injection hnext with h'
    have := stagePv_out g hg
    rw [hpv] at this
    subst h'
    simpa [outGen] using this
  | ok g1 =>
    rw [hpv] at hnext
    simp only at hnext
    have hg1 : g1.genType ≠ GenType.threatMove := by
      have := stagePv_out g hg
      rw [hpv] at this
      exact this
    have hg2 := stageCalcCaptures_out g1 cHist hg1
    cases hcap : stageCaptures (stageCalcCaptures g1 cHist) with
    | none => rw [hcap] at hnext; cases hnext
    | some x =>
      rw [hcap] at hnext
      have hx := stageCaptures_out _ hg2 x hcap
      cases x with
      | error r0 =>
        simp only at hnext
        injection hnext with h'
        subst h'
        simpa [outGen] using hx
      | ok g3 =>
        simp only at hnext
        cases hq : stageGenQuiet g3 hist cmHist with
        | none => rw [hq] at hnext; cases hnext
        | some g4 =>
          rw [hq] at hnext
          simp only at hnext
          have hg4 := stageGenQuiet_out g3 hist cmHist hx g4 hq
          cases hk : stageKiller g4 with
          | error r0 =>
            rw [hk] at hnext
            simp only at hnext
            injection hnext with h'
            have := stageKiller_out g4 hg4
            rw [hk] at this
            subst h'
            simpa [outGen] using this
          | ok g5 =>
            rw [hk] at hnext
            simp only at hnext
            have hg5 : g5.genType ≠ GenType.threatMove := by
              have := stageKiller_out g4 hg4
              rw [hk] at this
              exact this
            cases hc : stageCounterMove g5 with
            | error r0 =>
              rw [hc] at hnext
              simp only at hnext
              injection hnext with h'
              have := stageCounterMove_out g5 hg5
              rw [hc] at this
              subst h'
              simpa [outGen] using this
            | ok g6 =>
              rw [hc] at hnext
              simp only at hnext
              have hg6 : g6.genType ≠ GenType.threatMove := by
                have := stageCounterMove_out g5 hg5
                rw [hc] at this
                exact this
              rw [stageThreat_skip g6 hg6] at hnext
              simp only at hnext
              rw [stageQuiet_out g6 r g' hnext]
              exact hg6

def t8mv : CMove := { src := 0, dst := 2, promotion := none }

def q8mv : CMove := { src := 0, dst := 1, promotion := none }

/-- A white knight on square 0 with two quiet moves; no opponent
occupancy, so there are no captures. -/
def gBoard8 : GBoard :=
  { sideToMove := .white
    oppColorHas := fun _ => false
    pieceOn := fun sq => if sq = (0 : Fin 64) then some .knight else none
    see := fun _ _ => 0 }

/-- History giving the non-threat quiet `q8mv` (white knight to square 1)
score 5, everything else 0. -/
def hist8 : HistoryTable :=
  ⟨fun i j => if i = (1 : Fin 12) ∧ j = (1 : Fin 64) then 5 else 0⟩

/-- A fresh generator whose threat entry caches `t8mv`, with no pv,
counter or killer moves. -/
def c8Gen : OrderedMoveGen :=
  OrderedMoveGen.new gBoard8
    [{ piece := .knight, src := 0, expand := [q8mv, t8mv] }]
    none none none [t8mv] []

def c8Next : Option (Option CMove × OrderedMoveGen) :=
  c8Gen.next hist8 HistoryTable.new DoubleMoveHistory.new

/-- Claim C8 is false as stated: with the cached null-move refutation
`t8mv` queued, the very first emission after the counter-move stage is
the remaining-quiets move `q8mv` (highest score), while `t8mv` is still
sitting in the queue — the threat-move stage never ran. -/
theorem c8_threat_stage_cex :
    (c8Next.map fun r => (r.1, r.2.queue.map fun e => e.1))
        = some (some q8mv, [t8mv])
      ∧ t8mv ≠ q8mv
      ∧ c8Gen.threatMoveEntry = [t8mv] := by
  exact ⟨rfl, by decide, rfl⟩

/-- The generator state after the witness call to `next`. -/
def c8After : OrderedMoveGen :=
  ((c8Gen.next hist8 HistoryTable.new DoubleMoveHistory.new).getD
    (none, c8Gen)).2

/-- Concrete instantiation of `c8_threat_stage`: the state after one
`next` call is still not in the `ThreatMove` stage. -/
theorem c8_threat_stage_witness : c8After.genType ≠ GenType.threatMove :=
  (c8_threat_stage gBoard8 [] none none none [] [] c8Gen hist8
    HistoryTable.new DoubleMoveHistory.new (some q8mv) c8After
    (by decide) rfl).2

end BM
